import Mathlib

/-!
Verification of a mini reconciliation engine (fiber-based virtual-DOM core).

The development shallowly embeds the functions of `src/index.js`:

* `reconcileChildren` — positional diff of a new element sequence against the
  previous generation's child chain (JS lines 312-378).  The mutable
  `child`/`sibling` linking is represented by the returned list (the chain in
  order), the `deletions.push` side effects by the returned deletion list, and
  JS object identity by an explicit `id : Nat` threaded through the call
  (fresh ids come from a counter `nid`).
* `useState` / `setState` — hook replay and update scheduling
  (JS lines 264-297).
* `commitRoot` — the scheduler-variable effects of the commit engine
  (JS lines 105-114); host-tree mutation is modelled separately.
* `commitDeletion` and the `commitWork` dom-parent search (JS lines 120-162).
* `updateDom` — the four-phase prop/listener diff (JS lines 45-100), emitted
  as an explicit list of host operations.
* `performUnitOfWork`'s next-unit selection and `workLoop`'s commit trigger
  (JS lines 192-247), over a rose tree addressed by child-index paths.
-/

/-- A JS property value: a string-like plain value or a function (listener),
functions distinguished by identity. -/
inductive Value where
  | str (s : String)
  | fn (id : Nat)
deriving DecidableEq

/-- Keys and event names are modelled as lists of characters (JS strings). -/
abbrev Str := List Char

/-- A JS props object: an association list with (by JS object semantics)
pairwise distinct keys. -/
abbrev Props := List (Str × Value)

/-- The `type` of an element or fiber: a host tag name, the text sentinel
`"TEXT_ELEMENT"`, or a component function (identified by id).  JS `==`
comparison of types becomes decidable equality. -/
inductive Typ where
  | host (name : String)
  | text
  | component (fnId : Nat)
deriving DecidableEq

/-- `effectTag` values assigned by the reconciler. -/
inductive Tag where
  | placement
  | update
  | deletion
deriving DecidableEq

/-- An element description as produced by `createElement`: its `type` and its
props (the `children` entry of the props object is handled separately by the
reconciler, so it is not part of `props` here). -/
structure Element where
  type : Typ
  props : Props
deriving DecidableEq

/-- A fiber of the previous (old) generation as `reconcileChildren` sees it:
identity (`id`), `type`, `props`, optional host node (`dom`, by id) and the
`effectTag` it received when it was created. -/
structure OldFiber where
  id : Nat
  type : Typ
  props : Props
  dom : Option Nat
  effectTag : Tag
deriving DecidableEq

/-- A fiber produced by `reconcileChildren` for the work-in-progress
generation. -/
structure NewFiber where
  id : Nat
  type : Typ
  props : Props
  dom : Option Nat
  alternate : Option OldFiber
  effectTag : Tag
deriving DecidableEq

/-- `reconcileChildren` (JS lines 312-378).  Walks the new element sequence
and the old child chain in lock-step by position.  Same `type` at a position
gives an `UPDATE` fiber reusing the old fiber's `type` and `dom`, taking
`props` from the element and `alternate` from the old fiber; an element with
no same-type old fiber gives a fresh `PLACEMENT` fiber with no `dom` and no
`alternate`; an old fiber with no same-type element is tagged `DELETION` and
pushed onto the deletions list.  Returns (new child chain, deletions pushed),
both in iteration order; `nid` supplies fresh identities for the new JS
objects.  `deleteRest` is the tail phase of the JS `while` loop: the
iterations after the element sequence is exhausted, which tag every remaining
old fiber `DELETION` (and link nothing). -/
def deleteRest : List OldFiber → List OldFiber
  | [] => []
  | o :: os => { o with effectTag := Tag.deletion } :: deleteRest os

def reconcileChildren (nid : Nat) :
    List Element → List OldFiber → List NewFiber × List OldFiber
  | [], olds => ([], deleteRest olds)
  | e :: es, [] =>
      let nf : NewFiber :=
        ⟨nid, e.type, e.props, none, none, Tag.placement⟩
      let r := reconcileChildren (nid + 1) es []
      (nf :: r.1, r.2)
  | e :: es, o :: os =>
      if e.type = o.type then
        let nf : NewFiber :=
          ⟨nid, o.type, e.props, o.dom, some o, Tag.update⟩
        let r := reconcileChildren (nid + 1) es os
        (nf :: r.1, r.2)
      else
        let nf : NewFiber :=
          ⟨nid, e.type, e.props, none, none, Tag.placement⟩
        let r := reconcileChildren (nid + 1) es os
        (nf :: r.1, { o with effectTag := Tag.deletion } :: r.2)

/-- `true` when the old fiber `o` sitting at position `i` of the old chain is
removed by a reconciliation against the element sequence `es`: there is no
same-type element at position `i`. -/
def removedAt (es : List Element) (i : Nat) (o : OldFiber) : Bool :=
  match es.get? i with
  | some e => decide (e.type ≠ o.type)
  | none => true

/-- One reconciliation call's `effectTag` assignment events, in the order the
JS code performs them per position: each produced new fiber's tag is written
once at its creation (the object literal), and each `DELETION` marking writes
the old fiber's tag.  An event is (fiber identity, tag written). -/
def reconcileEvents (nid : Nat) (es : List Element) (olds : List OldFiber) :
    List (Nat × Tag) :=
  (reconcileChildren nid es olds).1.map (fun f => (f.id, f.effectTag)) ++
    (reconcileChildren nid es olds).2.map (fun d => (d.id, d.effectTag))

/-- After a commit the work-in-progress fibers become the next
reconciliation's old fibers; the JS object (identity, fields) is unchanged. -/
def toOldFiber (f : NewFiber) : OldFiber :=
  ⟨f.id, f.type, f.props, f.dom, f.effectTag⟩

/-- A hook record: current `state` and the queue of pending update
functions.  `S` is the caller-chosen state type. -/
structure Hook (S : Type) where
  state : S
  queue : List (S → S)

/-- `useState` (JS lines 264-272 and the replay loop 274-277): the new hook
starts from the old hook's state (or the initial value), then every action
queued on the old hook is applied in order; the new hook's own queue starts
empty. -/
def useState {S : Type} (oldHook : Option (Hook S)) (initial : S) : Hook S :=
  let base :=
    match oldHook with
    | some h => h.state
    | none => initial
  let actions :=
    match oldHook with
    | some h => h.queue
    | none => []
  { state := actions.foldl (fun s action => action s) base, queue := [] }

/-- A fiber as stored in the scheduler's global variables: host node (`dom`,
by id), plain props, the `children` entry of the props object, and the
`alternate` back link. -/
inductive GFiber where
  | mk (dom : Option Nat) (props : Props) (childElems : List Element)
      (alternate : Option GFiber)

def GFiber.dom : GFiber → Option Nat
  | .mk d _ _ _ => d

def GFiber.props : GFiber → Props
  | .mk _ p _ _ => p

def GFiber.childElems : GFiber → List Element
  | .mk _ _ c _ => c

def GFiber.alternate : GFiber → Option GFiber
  | .mk _ _ _ a => a

/-- The module-level mutable variables of the engine (JS lines 190-196). -/
structure EngineState where
  nextUnitOfWork : Option GFiber
  currentRoot : Option GFiber
  wipRoot : Option GFiber
  deletions : List GFiber

/-- The scheduler-variable effect of `commitRoot` (JS lines 105-114):
`currentRoot = wipRoot; wipRoot = null`.  The host-tree work it triggers
(`deletions.forEach(commitWork)` and `commitWork(wipRoot.child)`) mutates
only the host tree and is modelled by `commitDeletion`/`updateDom` below;
note that the `deletions` variable is NOT reassigned here. -/
def commitRoot (s : EngineState) : EngineState :=
  { s with currentRoot := s.wipRoot, wipRoot := none }

/-- `render` (JS lines 170-188): builds a fresh work-in-progress root over
the container whose only child element is the rendered element, with
`alternate` pointing at the committed root, resets `deletions` and sets
`nextUnitOfWork`. -/
def render (element : Element) (container : Nat) (g : EngineState) :
    EngineState :=
  let wip := GFiber.mk (some container) [] [element] g.currentRoot
  { g with wipRoot := some wip, nextUnitOfWork := some wip, deletions := [] }

/-- `setState` (JS lines 283-293): pushes the action onto the hook's queue,
then builds a brand-new `wipRoot` from `currentRoot` (reading
`currentRoot.dom` and `currentRoot.props`), sets `nextUnitOfWork` to it and
resets `deletions`.  When `currentRoot` is null the property reads fault
(JS `TypeError`), modelled by returning `none` for the state part — the
queue push has already happened at that point. -/
def setState {S : Type} (hook : Hook S) (action : S → S) (g : EngineState) :
    Hook S × Option EngineState :=
  let hook2 := { hook with queue := hook.queue ++ [action] }
  match g.currentRoot with
  | none => (hook2, none)
  | some cr =>
      let wip := GFiber.mk cr.dom cr.props cr.childElems (some cr)
      (hook2, some { g with
        wipRoot := some wip
        nextUnitOfWork := some wip
        deletions := [] })

/-- The part of a fiber that `commitDeletion` inspects: its host node and its
single child link (a function component fiber has `dom = none`). -/
inductive DelFiber where
  | mk (dom : Option Nat) (child : Option DelFiber)

/-- `commitDeletion` (JS lines 153-162) without the host mutation: returns
the id of the host node it removes — the fiber's own `dom`, else recursively
the child's.  A dom-less fiber without a child makes the JS code fault
(`fiber.dom` on `undefined`), modelled as `none`. -/
def commitDeletion : DelFiber → Option Nat
  | DelFiber.mk (some d) _ => some d
  | DelFiber.mk none (some c) => commitDeletion c
  | DelFiber.mk none none => none

/-- The `commitWork` dom-parent search (JS lines 125-129): walk the ancestor
chain (here, the list of the ancestors' `dom` fields, nearest first) until a
fiber with a host node is found. -/
def domParentSearch : List (Option Nat) → Option Nat
  | [] => none
  | none :: rest => domParentSearch rest
  | some d :: _ => some d

/-- `domParent.removeChild(dom)`: the host parent's child list with the node
`d` removed. -/
def removeChild (children : List Nat) (d : Nat) : List Nat :=
  children.erase d

/-- Specification-side relation, following the spec's words: `d` is the host
node of the nearest dom-bearing descendant-or-self of the deleted fiber
(descending through `child` links past dom-less component fibers). -/
inductive NearestHostDesc : DelFiber → Nat → Prop where
  | self (d : Nat) (c : Option DelFiber) :
      NearestHostDesc (DelFiber.mk (some d) c) d
  | deeper (c : DelFiber) (d : Nat) :
      NearestHostDesc c d → NearestHostDesc (DelFiber.mk none (some c)) d

/-- `key.startsWith("on")` (JS line 45). -/
def isEvent (k : Str) : Bool := k.take 2 == "on".toList

/-- `key !== "children" && !isEvent(key)` (JS lines 46-47). -/
def isProperty (k : Str) : Bool := !(k == "children".toList) && !(isEvent k)

/-- `prev[key] !== next[key]` (JS lines 48-49); an absent key reads as
`undefined`, i.e. `none`. -/
def isNew (prev next : Props) (k : Str) : Bool :=
  !(prev.lookup k == next.lookup k)

/-- `!(key in next)` (JS line 50). -/
def isGone (prev next : Props) (k : Str) : Bool := (next.lookup k).isNone

/-- `name.toLowerCase().substring(2)` (JS lines 62-64 and 92-94). -/
def eventType (k : Str) : Str := (k.map Char.toLower).drop 2

/-- A host mutation emitted by `updateDom`. -/
inductive DomOp where
  | removeListener (event : Str) (handler : Value)
  | clearProp (name : Str)
  | setProp (name : Str) (v : Value)
  | addListener (event : Str) (handler : Value)
deriving DecidableEq

/-- `updateDom` (JS lines 52-100) as the sequence of host mutations it
performs, in order: detach old-or-changed listeners, clear removed plain
attributes (set to the empty string), set new-or-changed plain attributes,
attach new-or-changed listeners.  JS objects have pairwise distinct keys, so
iterating `Object.keys` with indexing is iterating the (key, value) pairs. -/
def updateDom (P N : Props) : List DomOp :=
  ((P.filter (fun kv => isEvent kv.1)).filter
      (fun kv => !(N.lookup kv.1).isSome || isNew P N kv.1)).map
    (fun kv => DomOp.removeListener (eventType kv.1) kv.2) ++
  ((P.filter (fun kv => isProperty kv.1)).filter
      (fun kv => isGone P N kv.1)).map
    (fun kv => DomOp.clearProp kv.1) ++
  ((N.filter (fun kv => isProperty kv.1)).filter
      (fun kv => isNew P N kv.1)).map
    (fun kv => DomOp.setProp kv.1 kv.2) ++
  ((N.filter (fun kv => isEvent kv.1)).filter
      (fun kv => isNew P N kv.1)).map
    (fun kv => DomOp.addListener (eventType kv.1) kv.2)

/-- The shape of a fiber tree for the scheduler walk: each node carries its
ordered children.  A unit is addressed by its path of child indices from the
root. -/
inductive RTree where
  | node (children : List RTree)

def RTree.kids : RTree → List RTree
  | node cs => cs

/-- The subtree at a path. -/
def subtreeAt : List Nat → RTree → Option RTree
  | [], t => some t
  | i :: p, RTree.node cs =>
      match cs.get? i with
      | some c => subtreeAt p c
      | none => none

/-- Number of children of the unit at `parent` (0 when the path is dead). -/
def childCount (t : RTree) (parent : List Nat) : Nat :=
  match subtreeAt parent t with
  | some (RTree.node cs) => cs.length
  | none => 0

/-- The `while (nextFiber)` walk-up of `performUnitOfWork` (JS lines
238-246), over the reversed path: if the current unit has a sibling
(index + 1 exists under its parent) return it, else move to the parent; the
root has no sibling and no parent, ending the loop with no next unit. -/
def walkUpRev (t : RTree) : List Nat → Option (List Nat)
  | [] => none
  | i :: restRev =>
      if i + 1 < childCount t restRev.reverse then
        some (restRev.reverse ++ [i + 1])
      else walkUpRev t restRev

/-- Next-unit selection of `performUnitOfWork` (JS lines 233-246): the
unit's first child if it has one, else the walk-up search. -/
def performUnitOfWorkNext (t : RTree) (p : List Nat) : Option (List Nat) :=
  match subtreeAt p t with
  | some (RTree.node (_ :: _)) => some (p ++ [0])
  | _ => walkUpRev t p.reverse

/-- Specification-side: the ancestor-or-self chain of a path, nearest first,
ending at the root, built over the reversed path. -/
def ancRev : List Nat → List (List Nat)
  | [] => [[]]
  | i :: rev => (i :: rev).reverse :: ancRev rev

/-- Specification-side: ancestor-or-self paths of `p`, nearest first. -/
def ancestorsOrSelf (p : List Nat) : List (List Nat) := ancRev p.reverse

/-- Specification-side: the sibling of the unit at `q` (the next child index
under its parent), if any; the root has none. -/
def siblingOf (t : RTree) (q : List Nat) : Option (List Nat) :=
  match q.reverse with
  | [] => none
  | i :: restRev =>
      if i + 1 < childCount t restRev.reverse then
        some (restRev.reverse ++ [i + 1])
      else none

/-- The scheduler state `workLoop` manipulates: the next unit (as a path),
whether a work-in-progress root exists, and how many commits have run. -/
structure SchedState where
  nextUnitOfWork : Option (List Nat)
  wipRoot : Bool
  commits : Nat

/-- Commit as `workLoop` observes it: `commitRoot()` runs once and ends with
`wipRoot = null`. -/
def commitRootSched (s : SchedState) : SchedState :=
  { s with wipRoot := false, commits := s.commits + 1 }

/-- The `while (nextUnitOfWork && !shouldYield)` loop of `workLoop` (JS
lines 202-209): process one unit per step, moving `nextUnitOfWork` to the
next unit, until the time budget (`fuel`) or the units run out. -/
def workLoopGo (t : RTree) : Nat → SchedState → SchedState
  | 0, s => s
  | fuel + 1, s =>
      match s.nextUnitOfWork with
      | none => s
      | some p =>
          workLoopGo t fuel { s with nextUnitOfWork := performUnitOfWorkNext t p }

/-- One `workLoop` invocation (JS lines 198-219): run the slice, then
`if (!nextUnitOfWork && wipRoot) commitRoot()`. -/
def workLoop (t : RTree) (fuel : Nat) (s : SchedState) : SchedState :=
  let s1 := workLoopGo t fuel s
  if s1.nextUnitOfWork.isNone && s1.wipRoot then commitRootSched s1 else s1


/-- Whether the unit at `p` has a first child (the `fiber.child` test of
`performUnitOfWork`). -/
def hasChild (t : RTree) (p : List Nat) : Bool :=
  match subtreeAt p t with
  | some (RTree.node (_ :: _)) => true
  | _ => false

theorem removedAt_nil (i : Nat) (o : OldFiber) : removedAt [] i o = true := by
  simp [removedAt]

theorem removedAt_cons_zero (e : Element) (es : List Element) (o : OldFiber) :
    removedAt (e :: es) 0 o = decide (e.type ≠ o.type) := rfl

theorem removedAt_cons_succ (e : Element) (es : List Element) (j : Nat)
    (o : OldFiber) : removedAt (e :: es) (j + 1) o = removedAt es j o := rfl

theorem deleteRest_eq_map (olds : List OldFiber) :
    deleteRest olds = olds.map (fun o => { o with effectTag := Tag.deletion }) := by
  induction olds with
  | nil => rfl
  | cons o os ih => simp [deleteRest, ih]

theorem reconcileChildren_nil_olds (nid : Nat) (es : List Element) :
    (reconcileChildren nid es []).2 = [] := by
  induction es generalizing nid with
  | nil => rfl
  | cons e es ih => simp [reconcileChildren, ih]

theorem reconcileChildren_length (nid : Nat) (es : List Element)
    (olds : List OldFiber) :
    (reconcileChildren nid es olds).1.length = es.length := by
  induction es generalizing nid olds with
  | nil => simp [reconcileChildren]
  | cons e es ih =>
    cases olds with
    | nil => simp [reconcileChildren, ih]
    | cons o os =>
      by_cases h : e.type = o.type <;> simp [reconcileChildren, h, ih]

theorem reconcileChildren_id_ge (nid : Nat) (es : List Element)
    (olds : List OldFiber) :
    ∀ nf ∈ (reconcileChildren nid es olds).1, nid ≤ nf.id := by
  induction es generalizing nid olds with
  | nil => simp [reconcileChildren]
  | cons e es ih =>
    intro nf hnf
    cases olds with
    | nil =>
      simp only [reconcileChildren, List.mem_cons] at hnf
      rcases hnf with h | h
      · subst h; exact Nat.le_refl _
      · exact Nat.le_of_succ_le (ih (nid + 1) [] nf h)
    | cons o os =>
      by_cases h : e.type = o.type <;>
        simp only [reconcileChildren, h, if_true, if_false, ite_true, ite_false,
          List.mem_cons] at hnf <;>
        rcases hnf with h' | h'
      · subst h'; exact Nat.le_refl _
      · exact Nat.le_of_succ_le (ih (nid + 1) os nf h')
      · subst h'; exact Nat.le_refl _
      · exact Nat.le_of_succ_le (ih (nid + 1) os nf h')

theorem reconcileChildren_id_nodup (nid : Nat) (es : List Element)
    (olds : List OldFiber) :
    ((reconcileChildren nid es olds).1.map (fun f => f.id)).Nodup := by
  induction es generalizing nid olds with
  | nil => simp [reconcileChildren]
  | cons e es ih =>
    have hstep : ∀ (os' : List OldFiber),
        (nid :: (reconcileChildren (nid + 1) es os').1.map
          (fun f => f.id)).Nodup := by
      intro os'
      refine List.nodup_cons.2 ⟨?_, ih (nid + 1) os'⟩
      intro hmem
      rcases List.mem_map.1 hmem with ⟨nf, hnf, hid⟩
      have := reconcileChildren_id_ge (nid + 1) es os' nf hnf
      omega
    cases olds with
    | nil => simpa [reconcileChildren] using hstep []
    | cons o os =>
      by_cases h : e.type = o.type <;>
        simpa [reconcileChildren, h] using hstep os

theorem reconcileChildren_dels_sublist (nid : Nat) (es : List Element)
    (olds : List OldFiber) :
    ((reconcileChildren nid es olds).2.map (fun o => o.id)).Sublist
      (olds.map (fun o => o.id)) := by
  induction es generalizing nid olds with
  | nil =>
    simp only [reconcileChildren, deleteRest_eq_map, List.map_map]
    have : ((fun o => o.id) ∘ fun o : OldFiber =>
        { o with effectTag := Tag.deletion }) = fun o : OldFiber => o.id := by
      funext o; rfl
    rw [this]
  | cons e es ih =>
    cases olds with
    | nil => simp [reconcileChildren, reconcileChildren_nil_olds]
    | cons o os =>
      by_cases h : e.type = o.type
      · simpa [reconcileChildren, h] using (ih (nid + 1) os).cons o.id
      · simpa [reconcileChildren, h] using (ih (nid + 1) os).cons₂ o.id

/-- Position-by-position description of the produced child chain: at every
position `i` that carries a new element, the chain carries exactly one fiber,
an `UPDATE` reusing the old fiber when the types agree and a fresh
`PLACEMENT` otherwise. -/
theorem reconcileChildren_get (nid : Nat) (es : List Element)
    (olds : List OldFiber) (i : Nat) (e : Element) (he : es.get? i = some e) :
    (reconcileChildren nid es olds).1.get? i = some (
      match olds.get? i with
      | some o =>
          if e.type = o.type then
            ⟨nid + i, o.type, e.props, o.dom, some o, Tag.update⟩
          else ⟨nid + i, e.type, e.props, none, none, Tag.placement⟩
      | none => ⟨nid + i, e.type, e.props, none, none, Tag.placement⟩) := by
  induction es generalizing nid olds i with
  | nil => simp at he
  | cons e' es ih =>
    cases i with
    | zero =>
      simp only [List.get?_cons_zero, Option.some.injEq] at he
      subst he
      cases olds with
      | nil => simp [reconcileChildren]
      | cons o os =>
        by_cases h : e'.type = o.type <;> simp [reconcileChildren, h]
    | succ j =>
      simp only [List.get?_cons_succ] at he
      have harith : nid + 1 + j = nid + (j + 1) := by omega
      cases olds with
      | nil =>
        have := ih (nid + 1) [] j he
        simp only [List.get?_nil] at this
        simpa [reconcileChildren, harith] using this
      | cons o os =>
        have := ih (nid + 1) os j he
        by_cases h : e'.type = o.type <;>
          simpa [reconcileChildren, h, harith] using this

/-- An old fiber with no same-type element at its position is pushed, tagged
`DELETION`, onto the deletions list. -/
theorem reconcileChildren_dels_mem (nid : Nat) (es : List Element)
    (olds : List OldFiber) (i : Nat) (o : OldFiber)
    (ho : olds.get? i = some o) (hrem : removedAt es i o = true) :
    { o with effectTag := Tag.deletion } ∈ (reconcileChildren nid es olds).2 := by
  induction es generalizing nid olds i with
  | nil =>
    have hmem : o ∈ olds := List.get?_mem ho
    simp only [reconcileChildren, deleteRest_eq_map]
    exact List.mem_map_of_mem _ hmem
  | cons e es ih =>
    cases olds with
    | nil => simp at ho
    | cons o' os =>
      cases i with
      | zero =>
        simp only [List.get?_cons_zero, Option.some.injEq] at ho
        subst ho
        rw [removedAt_cons_zero] at hrem
        have hne : e.type ≠ o'.type := of_decide_eq_true hrem
        simp [reconcileChildren, hne]
      | succ j =>
        simp only [List.get?_cons_succ] at ho
        rw [removedAt_cons_succ] at hrem
        have := ih (nid + 1) os j ho hrem
        by_cases h : e.type = o'.type <;> simp [reconcileChildren, h, this]

/-- When the old chain's ids are pairwise distinct, an old fiber removed at
position `i` occurs exactly once in the deletions list, and one that is kept
does not occur at all. -/
theorem reconcileChildren_dels_countP (nid : Nat) (es : List Element)
    (olds : List OldFiber) (hno : (olds.map (fun o => o.id)).Nodup)
    (i : Nat) (o : OldFiber) (ho : olds.get? i = some o) :
    (reconcileChildren nid es olds).2.countP (fun d => d.id == o.id) =
      if removedAt es i o then 1 else 0 := by
  induction es generalizing nid olds i with
  | nil =>
    rw [removedAt_nil, if_pos rfl]
    have hmem : o ∈ olds := List.get?_mem ho
    simp only [reconcileChildren, deleteRest_eq_map]
    rw [List.countP_map]
    have hfun : ((fun d : OldFiber => d.id == o.id) ∘
        fun o' : OldFiber => { o' with effectTag := Tag.deletion }) =
        fun d : OldFiber => d.id == o.id := by
      funext d; rfl
    rw [hfun]
    have hmapmem : o.id ∈ olds.map (fun o' => o'.id) :=
      List.mem_map_of_mem _ hmem
    calc olds.countP (fun d => d.id == o.id)
        = (olds.map (fun o' => o'.id)).countP (fun x => x == o.id) := by
          rw [List.countP_map]; rfl
      _ = (olds.map (fun o' => o'.id)).count o.id := rfl
      _ = 1 := List.count_eq_one_of_mem hno hmapmem
  | cons e es ih =>
    cases olds with
    | nil => simp at ho
    | cons o' os =>
      simp only [List.map_cons, List.nodup_cons] at hno
      obtain ⟨hnotin, hnos⟩ := hno
      cases i with
      | zero =>
        simp only [List.get?_cons_zero, Option.some.injEq] at ho
        subst ho
        rw [removedAt_cons_zero]
        have hzero : (reconcileChildren (nid + 1) es os).2.countP
            (fun d => d.id == o'.id) = 0 := by
          rw [List.countP_eq_zero]
          intro d hd
          have hdid : d.id ∈ os.map (fun x => x.id) :=
            (reconcileChildren_dels_sublist (nid + 1) es os).subset
              (List.mem_map_of_mem _ hd)
          have : d.id ≠ o'.id := fun hEq => hnotin (hEq ▸ hdid)
          simpa using this
        by_cases h : e.type = o'.type
        · simp [reconcileChildren, h, hzero]
        · simp [reconcileChildren, h, hzero, List.countP_cons]
      | succ j =>
        simp only [List.get?_cons_succ] at ho
        rw [removedAt_cons_succ]
        have hoid : o.id ∈ os.map (fun x => x.id) :=
          List.mem_map_of_mem _ (List.get?_mem ho)
        have hne : o'.id ≠ o.id := fun hEq => hnotin (hEq ▸ hoid)
        have := ih (nid + 1) os hnos j ho
        by_cases h : e.type = o'.type
        · simpa [reconcileChildren, h] using this
        · simpa [reconcileChildren, h, List.countP_cons, hne] using this

/-- C1: in every `reconcileChildren` call, position by position against the
old child chain: a same-type pair yields an `UPDATE` fiber reusing the old
fiber's `dom` and `type`, taking `props` from the element, with `alternate`
the old fiber; an element without a same-type old fiber yields a `PLACEMENT`
fiber with no `dom` and no `alternate`; an old fiber without a same-type
element is pushed, tagged `DELETION`, onto the deletions list and is not
linked into the new chain (no chain fiber has its identity). -/
theorem reconcile_positional_cases (nid : Nat) (es : List Element)
    (olds : List OldFiber) (hfresh : ∀ o ∈ olds, o.id < nid) (i : Nat) :
    (∀ e o, es.get? i = some e → olds.get? i = some o → e.type = o.type →
      (reconcileChildren nid es olds).1.get? i =
        some ⟨nid + i, o.type, e.props, o.dom, some o, Tag.update⟩) ∧
    (∀ e, es.get? i = some e →
      (olds.get? i = none ∨ ∃ o, olds.get? i = some o ∧ e.type ≠ o.type) →
      (reconcileChildren nid es olds).1.get? i =
        some ⟨nid + i, e.type, e.props, none, none, Tag.placement⟩) ∧
    (∀ o, olds.get? i = some o →
      (es.get? i = none ∨ ∃ e, es.get? i = some e ∧ e.type ≠ o.type) →
      { o with effectTag := Tag.deletion } ∈ (reconcileChildren nid es olds).2 ∧
      ∀ nf ∈ (reconcileChildren nid es olds).1, nf.id ≠ o.id) := by
  refine ⟨?_, ?_, ?_⟩
  · intro e o he ho htype
    have h := reconcileChildren_get nid es olds i e he
    rw [ho] at h
    simpa [htype] using h
  · intro e he hdisj
    have h := reconcileChildren_get nid es olds i e he
    rcases hdisj with hnone | ⟨o, ho, hne⟩
    · rw [hnone] at h
      simpa using h
    · rw [ho] at h
      simpa [hne] using h
  · intro o ho hdisj
    have hrem : removedAt es i o = true := by
      rcases hdisj with hnone | ⟨e, he, hne⟩
      · unfold removedAt
        rw [hnone]
      · unfold removedAt
        rw [he]
        exact decide_eq_true hne
    refine ⟨reconcileChildren_dels_mem nid es olds i o ho hrem, ?_⟩
    intro nf hnf
    have h1 := reconcileChildren_id_ge nid es olds nf hnf
    have h2 := hfresh o (List.get?_mem ho)
    omega

/-- Witness for C1 at a concrete one-position input whose types differ: the
element becomes a `PLACEMENT` fiber and the old fiber is pushed as a
`DELETION`. -/
theorem reconcile_positional_cases_witness :
    (∀ o ∈ ([⟨0, Typ.host "p", [], some 3, Tag.placement⟩] : List OldFiber),
      o.id < 10) ∧
    (reconcileChildren 10 [⟨Typ.host "div", []⟩]
        [⟨0, Typ.host "p", [], some 3, Tag.placement⟩]).1.get? 0 =
      some ⟨10, Typ.host "div", [], none, none, Tag.placement⟩ ∧
    (⟨0, Typ.host "p", [], some 3, Tag.deletion⟩ : OldFiber) ∈
      (reconcileChildren 10 [⟨Typ.host "div", []⟩]
        [⟨0, Typ.host "p", [], some 3, Tag.placement⟩]).2 := by
  refine ⟨by decide, ?_, ?_⟩
  · exact (reconcile_positional_cases 10 [⟨Typ.host "div", []⟩]
      [⟨0, Typ.host "p", [], some 3, Tag.placement⟩] (by decide) 0).2.1
      ⟨Typ.host "div", []⟩ rfl
      (Or.inr ⟨⟨0, Typ.host "p", [], some 3, Tag.placement⟩, rfl, by decide⟩)
  · exact ((reconcile_positional_cases 10 [⟨Typ.host "div", []⟩]
      [⟨0, Typ.host "p", [], some 3, Tag.placement⟩] (by decide) 0).2.2
      ⟨0, Typ.host "p", [], some 3, Tag.placement⟩ rfl
      (Or.inr ⟨⟨Typ.host "div", []⟩, rfl, by decide⟩)).1

/-- C7: after one `reconcileChildren` call the produced chain's length
equals the element sequence's length (deleted-only positions contribute no
fiber), and — ids being distinct — every old fiber removed in the call
occurs exactly once in the deletions list while every kept old fiber occurs
zero times. -/
theorem reconcile_chain_length_deletions_once (nid : Nat) (es : List Element)
    (olds : List OldFiber) (hno : (olds.map (fun o => o.id)).Nodup) :
    (reconcileChildren nid es olds).1.length = es.length ∧
    ∀ i o, olds.get? i = some o →
      (reconcileChildren nid es olds).2.countP (fun d => d.id == o.id) =
        if removedAt es i o then 1 else 0 :=
  ⟨reconcileChildren_length nid es olds,
    fun i o ho => reconcileChildren_dels_countP nid es olds hno i o ho⟩

/-- Witness for C7 at a two-position input: one kept, one removed. -/
theorem reconcile_chain_length_deletions_once_witness :
    ((([⟨0, Typ.host "p", [], some 3, Tag.placement⟩,
        ⟨1, Typ.host "div", [], some 4, Tag.placement⟩] : List OldFiber).map
      (fun o => o.id)).Nodup) ∧
    ((reconcileChildren 10 [⟨Typ.host "p", []⟩]
        [⟨0, Typ.host "p", [], some 3, Tag.placement⟩,
          ⟨1, Typ.host "div", [], some 4, Tag.placement⟩]).1.length =
      ([⟨Typ.host "p", []⟩] : List Element).length ∧
      ∀ i o, ([⟨0, Typ.host "p", [], some 3, Tag.placement⟩,
          ⟨1, Typ.host "div", [], some 4, Tag.placement⟩] :
            List OldFiber).get? i = some o →
        (reconcileChildren 10 [⟨Typ.host "p", []⟩]
          [⟨0, Typ.host "p", [], some 3, Tag.placement⟩,
            ⟨1, Typ.host "div", [], some 4, Tag.placement⟩]).2.countP
            (fun d => d.id == o.id) =
          if removedAt [⟨Typ.host "p", []⟩] i o then 1 else 0) :=
  ⟨by decide, reconcile_chain_length_deletions_once 10 [⟨Typ.host "p", []⟩]
    [⟨0, Typ.host "p", [], some 3, Tag.placement⟩,
      ⟨1, Typ.host "div", [], some 4, Tag.placement⟩] (by decide)⟩

/-- C6 counterexample: the fiber with identity 0 is created `PLACEMENT` by
the first generation's reconciliation, and the next generation's
reconciliation (type changed `div` to `span`) assigns its `effectTag` a
second time, to `DELETION` — after the unit was already visited by the
commit engine.  So `effectTag` is not assigned exactly once per unit. -/
theorem effectTag_reassigned_cex :
    (reconcileEvents 0 [⟨Typ.host "div", []⟩] []).filter
      (fun ev => ev.1 == 0) = [(0, Tag.placement)] ∧
    (reconcileEvents 1 [⟨Typ.host "span", []⟩]
        ((reconcileChildren 0 [⟨Typ.host "div", []⟩] []).1.map
          toOldFiber)).filter (fun ev => ev.1 == 0) =
      [(0, Tag.deletion)] := by decide

/-- C6 amended: within a single `reconcileChildren` call each unit's
`effectTag` is assigned at most once (the assignment-event identities are
pairwise distinct), and each produced new fiber receives exactly its one
creation assignment; but a unit removed by a later generation's
reconciliation is assigned a second time (`DELETION`) by that later call. -/
theorem effectTag_once_within_pass (nid : Nat) (es : List Element)
    (olds : List OldFiber) (hfresh : ∀ o ∈ olds, o.id < nid)
    (hno : (olds.map (fun o => o.id)).Nodup) :
    ((reconcileEvents nid es olds).map Prod.fst).Nodup ∧
    ∀ nf ∈ (reconcileChildren nid es olds).1,
      (nf.id, nf.effectTag) ∈ reconcileEvents nid es olds := by
  constructor
  · unfold reconcileEvents
    rw [List.map_append, List.map_map, List.map_map]
    have h1 : (Prod.fst ∘ fun f : NewFiber => (f.id, f.effectTag)) =
        fun f : NewFiber => f.id := rfl
    have h2 : (Prod.fst ∘ fun d : OldFiber => (d.id, d.effectTag)) =
        fun d : OldFiber => d.id := rfl
    rw [h1, h2]
    refine List.Nodup.append (reconcileChildren_id_nodup nid es olds)
      ((reconcileChildren_dels_sublist nid es olds).nodup hno) ?_
    intro a ha hb
    rcases List.mem_map.1 ha with ⟨nf, hnf, rfl⟩
    have hge := reconcileChildren_id_ge nid es olds nf hnf
    have hsub := (reconcileChildren_dels_sublist nid es olds).subset hb
    rcases List.mem_map.1 hsub with ⟨o, ho, hid⟩
    have hlt := hfresh o ho
    omega
  · intro nf hnf
    exact List.mem_append_left _ (List.mem_map_of_mem _ hnf)

/-- Witness for the amended C6 at a concrete input. -/
theorem effectTag_once_within_pass_witness :
    (∀ o ∈ ([⟨0, Typ.host "p", [], some 3, Tag.placement⟩] : List OldFiber),
      o.id < 10) ∧
    (([⟨0, Typ.host "p", [], some 3, Tag.placement⟩] : List OldFiber).map
      (fun o => o.id)).Nodup ∧
    ((reconcileEvents 10 [⟨Typ.host "div", []⟩]
      [⟨0, Typ.host "p", [], some 3, Tag.placement⟩]).map Prod.fst).Nodup :=
  ⟨by decide, by decide,
    (effectTag_once_within_pass 10 [⟨Typ.host "div", []⟩]
      [⟨0, Typ.host "p", [], some 3, Tag.placement⟩]
      (by decide) (by decide)).1⟩

theorem setState_queue_foldl {S : Type} (g : EngineState) (s0 : S)
    (q : List (S → S)) (fs : List (S → S)) :
    fs.foldl (fun hk f => (setState hk f g).1) (Hook.mk s0 q) =
      Hook.mk s0 (q ++ fs) := by
  induction fs generalizing q with
  | nil => simp
  | cons f fs ih =>
    have hstep : (setState (Hook.mk s0 q) f g).1 = Hook.mk s0 (q ++ [f]) := by
      cases hcr : g.currentRoot <;> simp [setState, hcr]
    rw [List.foldl_cons, hstep, ih]
    simp

/-- C2: `useState` replays the old hook's queue in order starting from the
old hook's state (or uses the initial value when no old hook exists); in
particular, after the update capability is invoked with `f1..fN` between two
commits — each call pushing onto the hook's queue via `setState` — the next
rendered state is `fN (... (f1 s0))`, the left fold of the queued functions
over the previous state. -/
theorem useState_replay {S : Type} (s0 init : S) (fs : List (S → S))
    (g : EngineState) (old : Hook S) :
    (useState (some old) init).state =
      old.queue.foldl (fun s f => f s) old.state ∧
    (useState (none : Option (Hook S)) init).state = init ∧
    (useState (some (fs.foldl (fun hk f => (setState hk f g).1)
        (Hook.mk s0 []))) init).state = fs.foldl (fun s f => f s) s0 := by
  refine ⟨rfl, rfl, ?_⟩
  rw [setState_queue_foldl]
  rfl

/-- C3 counterexample: at a state whose pending-deletions collection is
nonempty, `commitRoot` promotes `wipRoot` to `currentRoot` and clears
`wipRoot`, but leaves the pending-deletions collection untouched (still of
length 1), contradicting the claim that it is cleared. -/
theorem commitRoot_deletions_cex :
    (commitRoot ⟨none, none, some (GFiber.mk (some 1) [] [] none),
        [GFiber.mk (some 2) [] [] none]⟩).currentRoot =
      some (GFiber.mk (some 1) [] [] none) ∧
    (commitRoot ⟨none, none, some (GFiber.mk (some 1) [] [] none),
        [GFiber.mk (some 2) [] [] none]⟩).wipRoot = none ∧
    (commitRoot ⟨none, none, some (GFiber.mk (some 1) [] [] none),
        [GFiber.mk (some 2) [] [] none]⟩).deletions.length = 1 :=
  ⟨rfl, rfl, rfl⟩

/-- C3 amended: after `commitRoot`, `currentRoot` equals the previous
`wipRoot` and `wipRoot` is cleared; the pending-deletions collection is NOT
cleared by `commitRoot` — it is reset to empty when the next generation is
scheduled, by `render` or by a successful `setState`. -/
theorem commitRoot_promotes_root {S : Type} (s : EngineState)
    (element : Element) (container : Nat) (hk : Hook S) (action : S → S) :
    (commitRoot s).currentRoot = s.wipRoot ∧
    (commitRoot s).wipRoot = none ∧
    (commitRoot s).deletions = s.deletions ∧
    (render element container s).deletions = [] ∧
    ∀ g', (setState hk action s).2 = some g' → g'.deletions = [] := by
  refine ⟨rfl, rfl, rfl, rfl, ?_⟩
  intro g' hg
  cases hcr : s.currentRoot with
  | none => simp [setState, hcr] at hg
  | some cr =>
    simp only [setState, hcr] at hg
    injection hg with hg
    rw [← hg]

/-- C9: a `setState` invocation appends the action to the hook's queue,
and — given a committed root — replaces `wipRoot` by a brand-new root whose
`dom` and `props` (including the `children` entry) come from `currentRoot`
and whose `alternate` is `currentRoot`, sets `nextUnitOfWork` to that root,
and resets the pending-deletions collection; every invocation schedules such
a fresh generation (no batching). -/
theorem setState_schedules_new_generation {S : Type} (hk : Hook S)
    (action : S → S) (g : EngineState) (cr : GFiber)
    (hcr : g.currentRoot = some cr) :
    (setState hk action g).1.queue = hk.queue ++ [action] ∧
    (setState hk action g).1.state = hk.state ∧
    (setState hk action g).2 = some { g with
      wipRoot := some (GFiber.mk cr.dom cr.props cr.childElems (some cr))
      nextUnitOfWork := some (GFiber.mk cr.dom cr.props cr.childElems (some cr))
      deletions := [] } := by
  refine ⟨?_, ?_, ?_⟩ <;> simp [setState, hcr]

/-- Witness for C9 at a concrete state with a committed root. -/
theorem setState_schedules_new_generation_witness :
    (⟨none, some (GFiber.mk (some 1) [] [] none), none,
        [GFiber.mk (some 2) [] [] none]⟩ : EngineState).currentRoot =
      some (GFiber.mk (some 1) [] [] none) ∧
    ((setState (Hook.mk (0 : Nat) []) (fun n => n + 1)
        ⟨none, some (GFiber.mk (some 1) [] [] none), none,
          [GFiber.mk (some 2) [] [] none]⟩).1.queue =
      [] ++ [fun n => n + 1] ∧
    (setState (Hook.mk (0 : Nat) []) (fun n => n + 1)
        ⟨none, some (GFiber.mk (some 1) [] [] none), none,
          [GFiber.mk (some 2) [] [] none]⟩).1.state = 0 ∧
    (setState (Hook.mk (0 : Nat) []) (fun n => n + 1)
        ⟨none, some (GFiber.mk (some 1) [] [] none), none,
          [GFiber.mk (some 2) [] [] none]⟩).2 = some {
      (⟨none, some (GFiber.mk (some 1) [] [] none), none,
        [GFiber.mk (some 2) [] [] none]⟩ : EngineState) with
      wipRoot := some (GFiber.mk (GFiber.mk (some 1) [] [] none).dom
        (GFiber.mk (some 1) [] [] none).props
        (GFiber.mk (some 1) [] [] none).childElems
        (some (GFiber.mk (some 1) [] [] none)))
      nextUnitOfWork := some (GFiber.mk (GFiber.mk (some 1) [] [] none).dom
        (GFiber.mk (some 1) [] [] none).props
        (GFiber.mk (some 1) [] [] none).childElems
        (some (GFiber.mk (some 1) [] [] none)))
      deletions := [] }) :=
  ⟨rfl, setState_schedules_new_generation (Hook.mk (0 : Nat) [])
    (fun n => n + 1)
    ⟨none, some (GFiber.mk (some 1) [] [] none), none,
      [GFiber.mk (some 2) [] [] none]⟩
    (GFiber.mk (some 1) [] [] none) rfl⟩

/-- C10: the state part of a `setState` invocation faults (the JS code
dereferences `currentRoot.dom` and `currentRoot.props` while building the
new `wipRoot`) exactly when no generation has ever been committed; a
committed root is a precondition for every successful invocation.  The
queue push, which precedes the dereference, happens either way. -/
theorem setState_requires_committed_root {S : Type} (hk : Hook S)
    (action : S → S) (g : EngineState) :
    ((setState hk action g).2 = none ↔ g.currentRoot = none) ∧
    (setState hk action g).1.queue = hk.queue ++ [action] := by
  constructor
  · cases hcr : g.currentRoot with
    | none => simp [setState, hcr]
    | some cr => simp [setState, hcr]
  · cases hcr : g.currentRoot <;> simp [setState, hcr]

theorem nearest_of_commitDeletion :
    ∀ (f : DelFiber) (d : Nat), commitDeletion f = some d → NearestHostDesc f d
  | DelFiber.mk (some x) c, d, h => by
      simp only [commitDeletion] at h
      injection h with h
      subst h
      exact NearestHostDesc.self x c
  | DelFiber.mk none (some c), d, h =>
      NearestHostDesc.deeper c d
        (nearest_of_commitDeletion c d (by simpa [commitDeletion] using h))
  | DelFiber.mk none none, d, h => by
      simp [commitDeletion] at h

theorem domParentSearch_first (ancs : List (Option Nat)) (pd : Nat)
    (h : domParentSearch ancs = some pd) :
    ∃ k, ancs.get? k = some (some pd) ∧ ∀ j < k, ancs.get? j = some none := by
  induction ancs with
  | nil => simp [domParentSearch] at h
  | cons a rest ih =>
    cases a with
    | none =>
      have h' : domParentSearch rest = some pd := by
        simpa [domParentSearch] using h
      obtain ⟨k, hk, hbefore⟩ := ih h'
      refine ⟨k + 1, by simpa using hk, ?_⟩
      intro j hj
      cases j with
      | zero => rfl
      | succ j' => exact hbefore j' (by omega)
    | some x =>
      have hx : x = pd := by simpa [domParentSearch] using h
      subst hx
      exact ⟨0, rfl, fun j hj => absurd hj (Nat.not_lt_zero j)⟩

/-- C5: for a `DELETION`-tagged fiber, `commitDeletion` removes from the
host parent exactly the host node of the fiber's nearest dom-bearing
descendant-or-self (descending past dom-less component fibers); the host
parent is the first dom-bearing fiber up the ancestor chain found by
`commitWork`; and after the removal that host node is no longer attached to
the parent, while every other child of the parent remains attached. -/
theorem commitDeletion_removes_nearest_host (f : DelFiber) (d : Nat)
    (ancs : List (Option Nat)) (pd : Nat) (children : List Nat)
    (hcd : commitDeletion f = some d)
    (hps : domParentSearch ancs = some pd)
    (hnd : children.Nodup) :
    NearestHostDesc f d ∧
    (∃ k, ancs.get? k = some (some pd) ∧ ∀ j < k, ancs.get? j = some none) ∧
    d ∉ removeChild children d ∧
    ∀ x ∈ children, x ≠ d → x ∈ removeChild children d := by
  refine ⟨nearest_of_commitDeletion f d hcd,
    domParentSearch_first ancs pd hps, ?_, ?_⟩
  · exact hnd.not_mem_erase
  · intro x hx hne
    exact (List.mem_erase_of_ne hne).2 hx

/-- Witness for C5: a deleted component fiber with no `dom` of its own whose
child is the host node 5; the dom-parent search skips one dom-less ancestor
and finds host node 9; removing 5 from the parent's children `[5, 7]`
detaches 5 and keeps 7. -/
theorem commitDeletion_removes_nearest_host_witness :
    commitDeletion (DelFiber.mk none (some (DelFiber.mk (some 5) none))) =
      some 5 ∧
    domParentSearch [none, some 9] = some 9 ∧
    ([5, 7] : List Nat).Nodup ∧
    (NearestHostDesc (DelFiber.mk none (some (DelFiber.mk (some 5) none))) 5 ∧
      (∃ k, ([none, some 9] : List (Option Nat)).get? k = some (some 9) ∧
        ∀ j < k, ([none, some 9] : List (Option Nat)).get? j = some none) ∧
      5 ∉ removeChild [5, 7] 5 ∧
      ∀ x ∈ ([5, 7] : List Nat), x ≠ 5 → x ∈ removeChild [5, 7] 5) :=
  ⟨rfl, rfl, by decide,
    commitDeletion_removes_nearest_host
      (DelFiber.mk none (some (DelFiber.mk (some 5) none))) 5
      [none, some 9] 9 [5, 7] rfl rfl (by decide)⟩

theorem eventType_strip_lower (k : Str) :
    eventType k = (k.drop 2).map Char.toLower :=
  (List.map_drop Char.toLower k 2).symm

theorem lookup_of_mem_keys_nodup (ps : Props) (k : Str) (v : Value)
    (hno : (ps.map Prod.fst).Nodup) (hmem : (k, v) ∈ ps) :
    ps.lookup k = some v := by
  induction ps with
  | nil => simp at hmem
  | cons p rest ih =>
    obtain ⟨k', v'⟩ := p
    simp only [List.map_cons, List.nodup_cons] at hno
    obtain ⟨hnotin, hrest⟩ := hno
    rcases List.mem_cons.1 hmem with heq | hmem'
    · injection heq with h1 h2
      subst h1; subst h2
      simp [List.lookup]
    · have hne : k ≠ k' := by
        intro hkk
        subst hkk
        exact hnotin (List.mem_map_of_mem Prod.fst hmem')
      have hbeq : (k == k') = false := beq_eq_false_iff_ne.2 hne
      simp only [List.lookup, hbeq]
      exact ih hrest hmem'

theorem updateDom_setProp_isProperty (P N : Props) (k : Str) (v : Value)
    (h : DomOp.setProp k v ∈ updateDom P N) : isProperty k = true := by
  simp only [updateDom, List.mem_append] at h
  rcases h with ((h | h) | h) | h <;>
    rcases List.mem_map.1 h with ⟨kv, hkv, hEq⟩
  · exact DomOp.noConfusion hEq
  · exact DomOp.noConfusion hEq
  · rcases List.mem_filter.1 hkv with ⟨hkv1, _⟩
    rcases List.mem_filter.1 hkv1 with ⟨_, hprop⟩
    injection hEq with h1 h2
    rw [← h1]
    exact hprop
  · exact DomOp.noConfusion hEq

theorem updateDom_clearProp_isProperty (P N : Props) (k : Str)
    (h : DomOp.clearProp k ∈ updateDom P N) : isProperty k = true := by
  simp only [updateDom, List.mem_append] at h
  rcases h with ((h | h) | h) | h <;>
    rcases List.mem_map.1 h with ⟨kv, hkv, hEq⟩
  · exact DomOp.noConfusion hEq
  · rcases List.mem_filter.1 hkv with ⟨hkv1, _⟩
    rcases List.mem_filter.1 hkv1 with ⟨_, hprop⟩
    injection hEq with h1
    rw [← h1]
    exact hprop
  · exact DomOp.noConfusion hEq
  · exact DomOp.noConfusion hEq

/-- C8: `updateDom` with previous props `P` and next props `N` detaches the
listener of every event-handler key of `P` (prefix `on`) that changed or is
absent in `N`; clears (sets to the empty string) every plain attribute key
of `P` absent from `N`; sets every plain attribute key of `N` whose value
differs from `P`; attaches the listener of every event-handler key of `N`
that is new or changed; derives event names by stripping the two-character
prefix and lower-casing the remainder; and never treats `children` as a
plain attribute. -/
theorem updateDom_spec (P N : Props) (hP : (P.map Prod.fst).Nodup)
    (hN : (N.map Prod.fst).Nodup) :
    (∀ k v, (k, v) ∈ P → isEvent k = true → N.lookup k ≠ some v →
      DomOp.removeListener ((k.drop 2).map Char.toLower) v ∈ updateDom P N) ∧
    (∀ k v, (k, v) ∈ P → isProperty k = true → N.lookup k = none →
      DomOp.clearProp k ∈ updateDom P N) ∧
    (∀ k v, (k, v) ∈ N → isProperty k = true → P.lookup k ≠ some v →
      DomOp.setProp k v ∈ updateDom P N) ∧
    (∀ k v, (k, v) ∈ N → isEvent k = true → P.lookup k ≠ some v →
      DomOp.addListener ((k.drop 2).map Char.toLower) v ∈ updateDom P N) ∧
    (∀ v, DomOp.setProp ("children".toList) v ∉ updateDom P N) ∧
    DomOp.clearProp ("children".toList) ∉ updateDom P N := by
  refine ⟨?_, ?_, ?_, ?_, ?_, ?_⟩
  · intro k v hkv hEv hne
    rw [← eventType_strip_lower]
    have hPl : P.lookup k = some v := lookup_of_mem_keys_nodup P k v hP hkv
    have hcond : (!(N.lookup k).isSome || isNew P N k) = true := by
      cases hNl : N.lookup k with
      | none => simp
      | some w =>
        have hvw : ¬ (v = w) := fun hEq => hne (by rw [hNl, hEq])
        simp [isNew, hPl, hNl, hvw]
    have hmem2 : (k, v) ∈ (P.filter (fun kv => isEvent kv.1)).filter
        (fun kv => !(N.lookup kv.1).isSome || isNew P N kv.1) :=
      List.mem_filter.2 ⟨List.mem_filter.2 ⟨hkv, hEv⟩, hcond⟩
    exact List.mem_append_left _ (List.mem_append_left _
      (List.mem_append_left _ (List.mem_map_of_mem _ hmem2)))
  · intro k v hkv hProp hNone
    have hcond : isGone P N k = true := by simp [isGone, hNone]
    have hmem2 : (k, v) ∈ (P.filter (fun kv => isProperty kv.1)).filter
        (fun kv => isGone P N kv.1) :=
      List.mem_filter.2 ⟨List.mem_filter.2 ⟨hkv, hProp⟩, hcond⟩
    exact List.mem_append_left _ (List.mem_append_left _
      (List.mem_append_right _ (List.mem_map_of_mem _ hmem2)))
  · intro k v hkv hProp hne
    have hNl : N.lookup k = some v := lookup_of_mem_keys_nodup N k v hN hkv
    have hcond : isNew P N k = true := by
      cases hPl : P.lookup k with
      | none => simp [isNew, hPl, hNl]
      | some w =>
        have hwv : ¬ (w = v) := fun hEq => hne (by rw [hPl, hEq])
        simp [isNew, hPl, hNl, hwv]
    have hmem2 : (k, v) ∈ (N.filter (fun kv => isProperty kv.1)).filter
        (fun kv => isNew P N kv.1) :=
      List.mem_filter.2 ⟨List.mem_filter.2 ⟨hkv, hProp⟩, hcond⟩
    exact List.mem_append_left _ (List.mem_append_right _
      (List.mem_map_of_mem _ hmem2))
  · intro k v hkv hEv hne
    rw [← eventType_strip_lower]
    have hNl : N.lookup k = some v := lookup_of_mem_keys_nodup N k v hN hkv
    have hcond : isNew P N k = true := by
      cases hPl : P.lookup k with
      | none => simp [isNew, hPl, hNl]
      | some w =>
        have hwv : ¬ (w = v) := fun hEq => hne (by rw [hPl, hEq])
        simp [isNew, hPl, hNl, hwv]
    have hmem2 : (k, v) ∈ (N.filter (fun kv => isEvent kv.1)).filter
        (fun kv => isNew P N kv.1) :=
      List.mem_filter.2 ⟨List.mem_filter.2 ⟨hkv, hEv⟩, hcond⟩
    exact List.mem_append_right _ (List.mem_map_of_mem _ hmem2)
  · intro v hIn
    exact absurd (updateDom_setProp_isProperty P N ("children".toList) v hIn)
      (by decide)
  · intro hIn
    exact absurd (updateDom_clearProp_isProperty P N ("children".toList) hIn)
      (by decide)

/-- Witness for C8 on concrete props: a changed listener, a removed plain
attribute, a changed plain attribute and the changed listener's attach. -/
theorem updateDom_spec_witness :
    ((([("onClick".toList, Value.fn 1), ("title".toList, Value.str "a"),
        ("class".toList, Value.str "x")] : Props).map Prod.fst).Nodup) ∧
    ((([("onClick".toList, Value.fn 2), ("title".toList, Value.str "b")] :
        Props).map Prod.fst).Nodup) ∧
    DomOp.removeListener ((("onClick".toList).drop 2).map Char.toLower)
        (Value.fn 1) ∈
      updateDom
        [("onClick".toList, Value.fn 1), ("title".toList, Value.str "a"),
          ("class".toList, Value.str "x")]
        [("onClick".toList, Value.fn 2), ("title".toList, Value.str "b")] ∧
    DomOp.clearProp ("class".toList) ∈
      updateDom
        [("onClick".toList, Value.fn 1), ("title".toList, Value.str "a"),
          ("class".toList, Value.str "x")]
        [("onClick".toList, Value.fn 2), ("title".toList, Value.str "b")] ∧
    DomOp.setProp ("title".toList) (Value.str "b") ∈
      updateDom
        [("onClick".toList, Value.fn 1), ("title".toList, Value.str "a"),
          ("class".toList, Value.str "x")]
        [("onClick".toList, Value.fn 2), ("title".toList, Value.str "b")] ∧
    DomOp.addListener ((("onClick".toList).drop 2).map Char.toLower)
        (Value.fn 2) ∈
      updateDom
        [("onClick".toList, Value.fn 1), ("title".toList, Value.str "a"),
          ("class".toList, Value.str "x")]
        [("onClick".toList, Value.fn 2), ("title".toList, Value.str "b")] :=
  ⟨by decide, by decide,
    (updateDom_spec _ _ (by decide) (by decide)).1 ("onClick".toList)
      (Value.fn 1) (by decide) (by decide) (by decide),
    (updateDom_spec _ _ (by decide) (by decide)).2.1 ("class".toList)
      (Value.str "x") (by decide) (by decide) (by decide),
    (updateDom_spec _ _ (by decide) (by decide)).2.2.1 ("title".toList)
      (Value.str "b") (by decide) (by decide) (by decide),
    (updateDom_spec _ _ (by decide) (by decide)).2.2.2.1 ("onClick".toList)
      (Value.fn 2) (by decide) (by decide) (by decide)⟩

theorem walkUpRev_eq_findSome (t : RTree) (rev : List Nat) :
    walkUpRev t rev = (ancRev rev).findSome? (siblingOf t) := by
  induction rev with
  | nil => rfl
  | cons i rev ih =>
    have hsib : siblingOf t (rev.reverse ++ [i]) =
        (if i + 1 < childCount t rev.reverse then
          some (rev.reverse ++ [i + 1]) else none) := by
      simp [siblingOf, List.reverse_append]
    by_cases h : i + 1 < childCount t rev.reverse
    · simp [walkUpRev, h, ancRev, List.findSome?_cons, hsib]
    · simp [walkUpRev, h, ancRev, List.findSome?_cons, hsib, ih]

theorem workLoopGo_preserves (t : RTree) (fuel : Nat) :
    ∀ s : SchedState, (workLoopGo t fuel s).wipRoot = s.wipRoot ∧
      (workLoopGo t fuel s).commits = s.commits := by
  induction fuel with
  | zero => intro s; exact ⟨rfl, rfl⟩
  | succ n ih =>
    intro s
    cases hnu : s.nextUnitOfWork with
    | none => simp [workLoopGo, hnu]
    | some p => simpa [workLoopGo, hnu] using ih _

/-- C4: the next unit `performUnitOfWork` selects is the unit's first child
when it has one, and otherwise the sibling of the nearest ancestor-or-self
with a sibling, found by walking up the parent links (none when the tree is
exhausted); and whenever a `workLoop` invocation ends with no next unit
while a work-in-progress root exists, it invokes the commit engine, after
which `wipRoot` is cleared. -/
theorem scheduler_next_and_commit (t : RTree) :
    (∀ p : List Nat, performUnitOfWorkNext t p =
      if hasChild t p then some (p ++ [0])
      else (ancestorsOrSelf p).findSome? (siblingOf t)) ∧
    (∀ (fuel : Nat) (s : SchedState),
      (workLoop t fuel s).nextUnitOfWork = none → s.wipRoot = true →
      (workLoop t fuel s).wipRoot = false ∧
      (workLoop t fuel s).commits = s.commits + 1) := by
  constructor
  · intro p
    cases hsub : subtreeAt p t with
    | none =>
      simp [performUnitOfWorkNext, hasChild, hsub, walkUpRev_eq_findSome,
        ancestorsOrSelf]
    | some st =>
      cases st with
      | node cs =>
        cases cs with
        | nil =>
          simp [performUnitOfWorkNext, hasChild, hsub, walkUpRev_eq_findSome,
            ancestorsOrSelf]
        | cons c cs' => simp [performUnitOfWorkNext, hasChild, hsub]
  · intro fuel s hnone hwip
    have hpres := workLoopGo_preserves t fuel s
    simp only [workLoop] at hnone ⊢
    by_cases hc : ((workLoopGo t fuel s).nextUnitOfWork.isNone &&
        (workLoopGo t fuel s).wipRoot) = true
    · rw [if_pos hc] at hnone ⊢
      refine ⟨rfl, ?_⟩
      simp [commitRootSched, hpres.2]
    · rw [if_neg hc] at hnone ⊢
      exact absurd (by rw [hnone, hpres.1, hwip]; rfl) hc

/-- Witness for C4: a two-unit tree walked to exhaustion in one slice, after
which the loop commits and clears `wipRoot`. -/
theorem scheduler_next_and_commit_witness :
    (workLoop (RTree.node [RTree.node []]) 3
      ⟨some [], true, 0⟩).nextUnitOfWork = none ∧
    (⟨some [], true, 0⟩ : SchedState).wipRoot = true ∧
    ((workLoop (RTree.node [RTree.node []]) 3 ⟨some [], true, 0⟩).wipRoot =
        false ∧
      (workLoop (RTree.node [RTree.node []]) 3 ⟨some [], true, 0⟩).commits =
        0 + 1) :=
  ⟨by decide, rfl,
    (scheduler_next_and_commit (RTree.node [RTree.node []])).2 3
      ⟨some [], true, 0⟩ (by decide) rfl⟩

/-- Witness for the amended C3 at a concrete state with a nonempty
pending-deletions collection and a committed root. -/
theorem commitRoot_promotes_root_witness :
    (commitRoot ⟨none, some (GFiber.mk (some 4) [] [] none),
        some (GFiber.mk (some 1) [] [] none),
        [GFiber.mk (some 3) [] [] none]⟩).currentRoot =
      some (GFiber.mk (some 1) [] [] none) ∧
    (commitRoot ⟨none, some (GFiber.mk (some 4) [] [] none),
        some (GFiber.mk (some 1) [] [] none),
        [GFiber.mk (some 3) [] [] none]⟩).wipRoot = none ∧
    (commitRoot ⟨none, some (GFiber.mk (some 4) [] [] none),
        some (GFiber.mk (some 1) [] [] none),
        [GFiber.mk (some 3) [] [] none]⟩).deletions =
      [GFiber.mk (some 3) [] [] none] ∧
    (render ⟨Typ.text, []⟩ 7 ⟨none, some (GFiber.mk (some 4) [] [] none),
        some (GFiber.mk (some 1) [] [] none),
        [GFiber.mk (some 3) [] [] none]⟩).deletions = [] ∧
    ∀ g', (setState (Hook.mk (0 : Nat) []) (fun n => n)
        ⟨none, some (GFiber.mk (some 4) [] [] none),
          some (GFiber.mk (some 1) [] [] none),
          [GFiber.mk (some 3) [] [] none]⟩).2 = some g' →
      g'.deletions = [] :=
  commitRoot_promotes_root
    ⟨none, some (GFiber.mk (some 4) [] [] none),
      some (GFiber.mk (some 1) [] [] none),
      [GFiber.mk (some 3) [] [] none]⟩
    ⟨Typ.text, []⟩ 7 (Hook.mk (0 : Nat) []) (fun n => n)
